import Mathlib

/-!
Shallow embedding of `src/parse.py` (a listing-page scraper): text/value
normalisation helpers, the JSON-LD structured-data extractor, the per-review
block field extraction, and the deduplicator, together with theorems settling
the specification claims about them.

Strings are modelled as `String`/`List Char`; machine floats are modelled as
exact rationals (`ℚ`); fallible coercions return `Option`.  Character classes
(`\d`, `\s`, `\w`, case folding) are modelled over ASCII via code points,
matching the inputs the scraper handles.
-/

namespace WebHW

/-- ASCII model of the regex class `\d` (Python `re` on the scraper's input):
code points 48-57. -/
def isDigitB (c : Char) : Bool :=
  48 ≤ c.toNat && c.toNat ≤ 57

/-- ASCII model of the regex class `\s` / Python `str.strip` whitespace:
space, tab, newline, carriage return, vertical tab, form feed. -/
def isPySpace (c : Char) : Bool :=
  c.toNat = 32 || c.toNat = 9 || c.toNat = 10 || c.toNat = 13 ||
  c.toNat = 11 || c.toNat = 12

/-- ASCII model of the regex class `\w`: letters, digits, underscore. -/
def isWordChar (c : Char) : Bool :=
  (48 ≤ c.toNat && c.toNat ≤ 57) || (65 ≤ c.toNat && c.toNat ≤ 90) ||
  (97 ≤ c.toNat && c.toNat ≤ 122) || c.toNat = 95

/-- Case-insensitive match of one subject character `c` against one pattern
character `p` (patterns in this file are lowercase ASCII literals, as in the
source's regexes used with `re.I`, and in `text.lower()` comparisons). -/
def ciCharEq (p c : Char) : Bool :=
  c = p || ((97 ≤ p.toNat && p.toNat ≤ 122) && c.toNat + 32 = p.toNat)

/-- Test `leadsWith pat cs`: `pat` is a literal leading segment of `cs`. -/
def leadsWith : List Char → List Char → Bool
  | [], _ => true
  | _ :: _, [] => false
  | p :: ps, c :: cs => p = c && leadsWith ps cs

/-- Test `ciLeadsWith pat cs`: `pat` (lowercase literal) is a case-insensitive
leading segment of `cs`. -/
def ciLeadsWith : List Char → List Char → Bool
  | [], _ => true
  | _ :: _, [] => false
  | p :: ps, c :: cs => ciCharEq p c && ciLeadsWith ps cs

/-- Test `containsSeq pat cs`: `pat` occurs contiguously somewhere in `cs`
(Python `pat in s`). -/
def containsSeq (pat : List Char) : List Char → Bool
  | [] => leadsWith pat []
  | c :: cs => leadsWith pat (c :: cs) || containsSeq pat cs

/-- Test `ciContainsSeq pat cs`: case-insensitive contiguous occurrence; models
`pat in s.lower()` for a lowercase ASCII literal `pat`. -/
def ciContainsSeq (pat : List Char) : List Char → Bool
  | [] => ciLeadsWith pat []
  | c :: cs => ciLeadsWith pat (c :: cs) || ciContainsSeq pat cs

/-- Value of a digit string, most significant first (accumulator form). -/
def digitsValAux : ℕ → List Char → ℕ
  | a, [] => a
  | a, c :: cs => digitsValAux (10 * a + (c.toNat - 48)) cs

/-- Numeric value of a decimal digit string, e.g. `digitsVal ['4','0'] = 40`. -/
def digitsVal (ds : List Char) : ℕ := digitsValAux 0 ds

/-- Value of a fractional digit string, e.g. `fracVal ['2','5'] = 1/4`. -/
def fracVal (fs : List Char) : ℚ := (digitsVal fs : ℚ) / 10 ^ fs.length

/-- The digits of the optional fractional part. -/
def fracDigits : Option (List Char) → List Char
  | none => []
  | some fs => fs

/-- Value of a decimal numeral split into integer digits and an optional
fraction, e.g. `numValQ ['4'] (some ['5']) = 9/2`: the value of all digits
read as one integer, divided by ten to the length of the fraction
(`numValQ_eq` below restates this as integer part plus fraction). -/
def numValQ (ds : List Char) (frac : Option (List Char)) : ℚ :=
  mkRat (digitsVal (ds ++ fracDigits frac)) (10 ^ (fracDigits frac).length)

/-- The characters of the optional fractional part, dot included. -/
def fracChars : Option (List Char) → List Char
  | none => []
  | some fs => '.' :: fs

/-- Truncation of a rational toward zero: the `int()` coercion Python applies
to a finite float. -/
def truncQ (q : ℚ) : ℤ := if q < 0 then ⌈q⌉ else ⌊q⌋

/-- Python `str.strip()` on a character list. -/
def stripPy (cs : List Char) : List Char :=
  ((cs.dropWhile isPySpace).reverse.dropWhile isPySpace).reverse

/-- Python `str.strip()` on a string (used by `dedupe` for review text). -/
def pyStrip (s : String) : String := (stripPy s.toList).asString

/-- The mantissa part accepted by Python's `float()` constructor:
`digits`, `digits.digits`, `digits.`, or `.digits`.  (Exponents, `inf`/`nan`
and underscore separators are outside the scraper's inputs and are not
modelled; such strings are mapped to `none` by the surrounding parser.) -/
def pyMantissa (cs : List Char) : Option ℚ :=
  let ds := cs.takeWhile isDigitB
  let r1 := cs.dropWhile isDigitB
  match r1 with
  | [] => if ds.isEmpty then none else some (digitsVal ds : ℚ)
  | '.' :: r2 =>
    let fs := r2.takeWhile isDigitB
    let r3 := r2.dropWhile isDigitB
    if r3.isEmpty ∧ ¬(ds.isEmpty ∧ fs.isEmpty) then
      some (mkRat (digitsVal (ds ++ fs)) (10 ^ fs.length))
    else none
  | _ => none

/-- Model of Python `float(s)` on a character list: optional surrounding
whitespace, optional sign, decimal mantissa; malformed input gives `none`
(the source catches the exception). -/
def pyFloatChars (cs : List Char) : Option ℚ :=
  match stripPy cs with
  | '-' :: r => (pyMantissa r).map (fun q => -q)
  | '+' :: r => pyMantissa r
  | r => pyMantissa r

/-- Model of Python `float(s)` on a string. -/
def pyFloat (s : String) : Option ℚ := pyFloatChars s.toList

/-- Source `parse.py` line 33-35, `pf`: best-effort float coercion.  `pf(None)`
raises inside the `try` and yields `None`, hence the `Option` argument. -/
def pf (x : Option String) : Option ℚ := x.bind pyFloat

/-- Source `parse.py` line 37-39, `pi`: `int(float(s))` with every failure mapped to
`None`.  `int()` on a finite float truncates toward zero. -/
def pi (x : Option String) : Option ℤ :=
  x.bind (fun s => (pyFloat s).map truncQ)

/-- The character class `[\d\.,]` of `num_in`'s regex. -/
def isNumClass (c : Char) : Bool := isDigitB c || c = '.' || c = ','

/-- Leftmost maximal run of `[\d\.,]` characters (`re.search` of
`([\d\.,]+)` in `num_in`, line 28-31). -/
def numInChars : List Char → Option (List Char)
  | [] => none
  | c :: cs =>
    if isNumClass c then some ((c :: cs).takeWhile isNumClass)
    else numInChars cs

/-- Source `parse.py` line 28-31, `num_in`: first `[\d\.,]+` run with the commas
(thousands separators) removed; `none` when the string has no such run or is
falsy. -/
def num_in (s : String) : Option String :=
  (numInChars s.toList).map (fun l => (l.filter (fun c => c ≠ ',')).asString)

/-- The alternation `(?:star|of 5 bubbles)` of the rating-label regex
(line 44), case-insensitive, tested as a leading segment. -/
def ratingKeywordAt (cs : List Char) : Bool :=
  ciLeadsWith "star".toList cs || ciLeadsWith "of 5 bubbles".toList cs

/-- Tail of the rating-label regex after the captured numeral: `\s*` then the
keyword alternation; on success the value of the captured numeral (which
`pf` converts exactly) is returned. -/
def ratingTailCheck (rest : List Char) (ds : List Char)
    (frac : Option (List Char)) : Option ℚ :=
  if ratingKeywordAt (rest.dropWhile isPySpace) then some (numValQ ds frac)
  else none

/-- One anchored attempt of the regex `(\d+(?:\.\d+)?)\s*(?:star|of 5
bubbles)` (line 44) at the head of `cs`.  The greedy digit runs never
backtrack usefully here (the characters that may follow them — `.`, `\s`,
`s`, `o` — are not digits), so the greedy-only reading below is exact. -/
def ratingMatchAt (cs : List Char) : Option ℚ :=
  let ds := cs.takeWhile isDigitB
  let r1 := cs.dropWhile isDigitB
  if ds.isEmpty then none
  else
    match r1 with
    | '.' :: r2 =>
      let fs := r2.takeWhile isDigitB
      if fs.isEmpty then ratingTailCheck r1 ds none
      else ratingTailCheck (r2.dropWhile isDigitB) ds (some fs)
    | _ => ratingTailCheck r1 ds none

/-- Model of `re.search` of the rating-label regex: leftmost anchored attempt that
succeeds. -/
def ratingSearch : List Char → Option ℚ
  | [] => none
  | c :: cs =>
    match ratingMatchAt (c :: cs) with
    | some v => some v
    | none => ratingSearch cs

/-- Source `parse.py` line 41-45, `parse_rating_from_aria_label`: `None` and the
empty string are falsy and give `None`; otherwise the first regex match's
captured numeral as a float. -/
def parse_rating_from_aria_label (aria : Option String) : Option ℚ :=
  match aria with
  | none => none
  | some s => if s = "" then none else ratingSearch s.toList

/-- Specification-side reading of one occurrence of the rating-label
pattern: at this position the label splits into a nonempty run of integer
digits, an optional dot-plus-nonempty-digits fraction, a run of whitespace,
and a tail beginning with `star` or `of 5 bubbles` (case-insensitive). -/
def AriaDecomp (cs ds : List Char) (frac : Option (List Char))
    (ws tail : List Char) : Prop :=
  cs = ds ++ fracChars frac ++ ws ++ tail ∧
  ds ≠ [] ∧ (∀ c ∈ ds, isDigitB c = true) ∧
  (∀ fs, frac = some fs → fs ≠ [] ∧ ∀ c ∈ fs, isDigitB c = true) ∧
  (∀ c ∈ ws, isPySpace c = true) ∧
  ratingKeywordAt tail = true

/-- One anchored attempt of the regex `bubble_(\d+)` (line 128) at the head
of `cs`: the literal `bubble_` followed by a maximal nonempty digit run. -/
def bubbleMatchAt (cs : List Char) : Option ℕ :=
  if leadsWith "bubble_".toList cs then
    let ds := (cs.drop 7).takeWhile isDigitB
    if ds.isEmpty then none else some (digitsVal ds)
  else none

/-- Model of `re.search` of `bubble_(\d+)` followed by the source's `int(...) / 10.0`
(line 129). -/
def bubbleSearch : List Char → Option ℚ
  | [] => none
  | c :: cs =>
    match bubbleMatchAt (c :: cs) with
    | some n => some (mkRat n 10)
    | none => bubbleSearch cs

/-- Source `parse.py` lines 118-129: per-block star extraction.  `starAria` is the
`aria-label` of the selected star element when that element exists and has
the attribute (in that case the bubble fallback is never consulted, even if
the label yields no rating); `bubbleCls` is the space-joined class string of
the selected `ui_bubble_rating` span. -/
def extract_stars (starAria : Option String) (bubbleCls : Option String) :
    Option ℚ :=
  match starAria with
  | some lbl => parse_rating_from_aria_label (some lbl)
  | none =>
    match bubbleCls with
    | some cls => bubbleSearch cls.toList
    | none => none

/-- Regex word boundary before a match that starts with a word character:
the preceding character (if any) is not a word character. -/
def prevBoundary : Option Char → Bool
  | none => true
  | some p => !(isWordChar p)

/-- Anchored attempt of `reviews?\b` (the part after the leading boundary of
the regex `\breviews?\b`, line 95, case-insensitive): `review`, an optional
`s`, then a word boundary.  If the character after `review` is an `s`
followed by a word character, backtracking to the no-`s` branch also fails
(that `s` is itself a word character), which the explicit cases reflect. -/
def reviewWordAt (cs : List Char) : Bool :=
  ciLeadsWith "review".toList cs &&
    (match cs.drop 6 with
     | [] => true
     | c :: rest =>
       if ciCharEq 's' c then
         match rest with
         | [] => true
         | d :: _ => !(isWordChar d)
       else !(isWordChar c))

/-- Model of `re.search` of `\breviews?\b`: scan every position, tracking the
previous character for the leading boundary. -/
def reviewScan : Option Char → List Char → Bool
  | _, [] => false
  | prev, c :: cs =>
    (prevBoundary prev && reviewWordAt (c :: cs)) || reviewScan (some c) cs

/-- Whether a text node matches `re.compile(r"\breviews?\b", re.I)`
(the `find_all(string=...)` filter, line 95). -/
def hasReviewWord (s : String) : Bool := reviewScan none s.toList

/-- Source `parse.py` lines 93-97: best-effort total review count.  Iterates the
document's text nodes in order; for a node matching `\breviews?\b`,
`n = pi(num_in(str(t)))` and `if n:` stops with the first node whose
extracted integer is truthy (non-`None` and nonzero). -/
def guess_total_reviews : List String → Option ℤ
  | [] => none
  | t :: ts =>
    if hasReviewWord t then
      match pi (num_in t) with
      | some n => if n ≠ 0 then some n else guess_total_reviews ts
      | none => guess_total_reviews ts
    else guess_total_reviews ts

/-- What one text node contributes to the total-review scan: the extracted
integer when the node matches the word regex and `pi(num_in(t))` is truthy
(present and nonzero), else nothing. -/
def nodeCount (t : String) : Option ℤ :=
  if hasReviewWord t then
    match pi (num_in t) with
    | some n => if n ≠ 0 then some n else none
    | none => none
  else none

/-- Word boundary after a match that ends with a word character: the next
character (if any) is not a word character. -/
def boundaryOkAfter (cs : List Char) : Bool :=
  match cs with
  | [] => true
  | c :: _ => !(isWordChar c)

/-- Anchored attempt of the first date alternative
`\b\w+\s+\d{1,2},\s*\d{4}\b` of the regex at line 135 (leading boundary
handled by the scanner).  The adjacent greedy classes are disjoint, so the
greedy-only reading is exact; `\d{1,2}` succeeds iff the maximal digit run
has length 1 or 2 and is followed by the comma, and `\d{4}\b` iff the
maximal run has length exactly 4 with a non-word character after it. -/
def dateAltA (cs : List Char) : Option (List Char) :=
  let w := cs.takeWhile isWordChar
  if w.isEmpty then none
  else
    let r1 := cs.dropWhile isWordChar
    let sp1 := r1.takeWhile isPySpace
    if sp1.isEmpty then none
    else
      let r2 := r1.dropWhile isPySpace
      let dd := r2.takeWhile isDigitB
      if dd.length = 0 ∨ 2 < dd.length then none
      else
        match r2.drop dd.length with
        | ',' :: r3 =>
          let sp2 := r3.takeWhile isPySpace
          let r4 := r3.dropWhile isPySpace
          let yy := r4.takeWhile isDigitB
          if yy.length = 4 ∧ boundaryOkAfter (r4.drop 4) then
            some (w ++ sp1 ++ dd ++ ',' :: (sp2 ++ r4.take 4))
          else none
        | _ => none

/-- Anchored attempt of the second date alternative
`\b\d{1,2}\s\w+\s\d{4}\b` of the regex at line 135. -/
def dateAltB (cs : List Char) : Option (List Char) :=
  let dd := cs.takeWhile isDigitB
  if dd.length = 0 ∨ 2 < dd.length then none
  else
    match cs.drop dd.length with
    | c :: r1 =>
      if isPySpace c then
        let w := r1.takeWhile isWordChar
        if w.isEmpty then none
        else
          match r1.drop w.length with
          | c2 :: r2 =>
            if isPySpace c2 then
              let yy := r2.takeWhile isDigitB
              if yy.length = 4 ∧ boundaryOkAfter (r2.drop 4) then
                some (dd ++ c :: (w ++ c2 :: r2.take 4))
              else none
            else none
          | [] => none
      else none
    | [] => none

/-- Anchored attempt of the third date alternative `\b\d{4}-\d{2}-\d{2}\b`
of the regex at line 135. -/
def dateAltC (cs : List Char) : Option (List Char) :=
  let y := cs.takeWhile isDigitB
  if y.length = 4 then
    match cs.drop 4 with
    | '-' :: r1 =>
      let m := r1.takeWhile isDigitB
      if m.length = 2 then
        match r1.drop 2 with
        | '-' :: r2 =>
          let d := r2.takeWhile isDigitB
          if d.length = 2 ∧ boundaryOkAfter (r2.drop 2) then
            some (y ++ '-' :: (m ++ '-' :: r2.take 2))
          else none
        | _ => none
      else none
    | _ => none
  else none

/-- Model of `re.search` of the three-alternative date regex (line 135): positions
are tried left to right; at each position the alternatives are tried in
order.  Every alternative starts with a word character, so the leading `\b`
amounts to the previous character not being a word character. -/
def dateScan : Option Char → List Char → Option (List Char)
  | _, [] => none
  | prev, c :: cs =>
    if prevBoundary prev then
      match dateAltA (c :: cs) with
      | some m => some m
      | none =>
        match dateAltB (c :: cs) with
        | some m => some m
        | none =>
          match dateAltC (c :: cs) with
          | some m => some m
          | none => dateScan (some c) cs
    else dateScan (some c) cs

/-- Source `parse.py` lines 132-136: the date element's text, rewritten to the
first recognized date-shaped substring when one is found (a falsy — empty —
text skips the regex). -/
def normDate (d : Option String) : Option String :=
  match d with
  | none => none
  | some s =>
    if s = "" then some s
    else
      match dateScan none s.toList with
      | some m => some m.asString
      | none => some s

/-- Python truthiness of an optional string: present and nonempty. -/
def pyTruthyStr : Option String → Bool
  | none => false
  | some s => s ≠ ""

/-- Python truthiness of an optional float: present and nonzero. -/
def pyTruthyQ : Option ℚ → Bool
  | none => false
  | some q => q ≠ 0

/-- Python truthiness of an optional int: present and nonzero. -/
def pyTruthyZ : Option ℤ → Bool
  | none => false
  | some n => n ≠ 0

/-- Source `parse.py` lines 139-140: the junk filter
`any(k in text.lower() for k in {"back to search", "verified"})`. -/
def junkText (s : String) : Bool :=
  ciContainsSeq "back to search".toList s.toList ||
  ciContainsSeq "verified".toList s.toList

/-- One review row as appended at line 144. -/
structure Row where
  reviewer_handle : Option String
  star_rating : Option ℚ
  date : Option String
  review_text : Option String
deriving DecidableEq

/-- The per-block raw fields handed to lines 112-144 by the DOM collaborator:
`reviewer`/`text` are `txt(...)` of the selected elements, `starAria` the
star element's `aria-label` when that element exists and carries one,
`bubbleCls` the joined class string of the selected bubble span, `dateTxt`
the `txt(...)` of the selected date element. -/
structure Block where
  reviewer : Option String
  text : Option String
  starAria : Option String
  bubbleCls : Option String
  dateTxt : Option String
deriving DecidableEq

/-- Source `parse.py` lines 111-144, per-block body of `parse_reviews_from_dom`:
requires a truthy reviewer or text, extracts stars and date, drops blocks
whose (truthy) text contains a junk substring, and appends a row when any
field is truthy. -/
def processBlock (b : Block) : Option Row :=
  if !(pyTruthyStr b.reviewer || pyTruthyStr b.text) then none
  else
    let stars := extract_stars b.starAria b.bubbleCls
    let date := normDate b.dateTxt
    if pyTruthyStr b.text && junkText (b.text.getD "") then none
    else
      if pyTruthyStr b.reviewer || pyTruthyQ stars || pyTruthyStr date ||
          pyTruthyStr b.text then
        some ⟨b.reviewer, stars, date, b.text⟩
      else none

/-- Source `parse.py` lines 108-145, `parse_reviews_from_dom`: the first `limit`
candidate blocks, each through the per-block extraction. -/
def parse_reviews_from_dom (blocks : List Block) (limit : ℕ) : List Row :=
  (blocks.take limit).filterMap processBlock

/-- The deduplication key of line 150:
`((r.get("review_text") or "").strip(), r.get("date") or "")` — the text is
stripped, the date is not. -/
def dedupeKey (r : Row) : String × String :=
  (pyStrip (r.review_text.getD ""), r.date.getD "")

/-- Loop of `dedupe` (lines 147-153) with the `seen` set made explicit. -/
def dedupeGo (seen : List (String × String)) : List Row → List Row
  | [] => []
  | r :: rs =>
    if dedupeKey r ∈ seen then dedupeGo seen rs
    else r :: dedupeGo (dedupeKey r :: seen) rs

/-- Source `parse.py` lines 147-153, `dedupe`. -/
def dedupe (rs : List Row) : List Row := dedupeGo [] rs

/-- Reference formulation of first-occurrence keying, following the spec's
words ("keeps exactly the first record for each distinct key in input
order"): keep the head, remove every later record sharing its key, recurse. -/
def keepFirstByKey : List Row → List Row
  | [] => []
  | r :: rs =>
    r :: keepFirstByKey (rs.filter (fun x => dedupeKey x ≠ dedupeKey r))
termination_by l => l.length
decreasing_by
  simp only [List.length_cons]
  exact Nat.lt_succ_of_le (List.length_filter_le _ _)

/-- A JSON value that is a single string or a sequence of strings, as the
`@type`, `servesCuisine` and `category` fields may be. -/
inductive StrOrList where
  | s (v : String)
  | l (vs : List String)
deriving DecidableEq

/-- The nested `aggregateRating` object (fields used at lines 73-75). -/
structure AggRating where
  ratingValue : Option String
  reviewCount : Option String
  ratingCount : Option String
deriving DecidableEq

/-- The nested `address` object (fields used at lines 67-71). -/
structure Address where
  addressLocality : Option String
  locality : Option String
  addressRegion : Option String
deriving DecidableEq

/-- One parsed JSON-LD object as consumed by `parse_jsonld` (lines 56-76).
`address = none` covers a missing, falsy or non-dict `address` (in each case
the source leaves `city_region` as `None`); `aggregateRating = none` covers a
missing or falsy `aggregateRating` (the source substitutes `{}`). -/
structure LdObj where
  atType : Option StrOrList
  name : Option String
  servesCuisine : Option StrOrList
  category : Option StrOrList
  address : Option Address
  priceRange : Option String
  aggregateRating : Option AggRating
deriving DecidableEq

/-- The business-field record `out` built by `parse_jsonld` (line 48-49). -/
structure BizOut where
  name : Option String
  categories : Option String
  city_region : Option String
  price_range : Option String
  overall_rating : Option ℚ
  total_review_count : Option ℤ
deriving DecidableEq

/-- The all-`None` initial value of `out` (lines 48-49). -/
def emptyBizOut : BizOut := ⟨none, none, none, none, none, none⟩

/-- Python `a or b` on optional strings ("" and `None` falsy). -/
def pyOrS (a b : Option String) : Option String :=
  if pyTruthyStr a then a else b

/-- Python `a or b` on optional floats (`0.0` and `None` falsy). -/
def pyOrQ (a b : Option ℚ) : Option ℚ :=
  if pyTruthyQ a then a else b

/-- Python `a or b` on optional ints (`0` and `None` falsy). -/
def pyOrZ (a b : Option ℤ) : Option ℤ :=
  if pyTruthyZ a then a else b

/-- The recognized business-entity type names (line 59). -/
def typeKeywords : List String :=
  ["LocalBusiness", "Restaurant", "Hotel", "Organization",
   "TouristAttraction", "Product"]

/-- Line 57: `at = obj.get("@type"); at = " ".join(at) if isinstance(at,
list) else at`. -/
def atJoined (o : LdObj) : Option String :=
  match o.atType with
  | none => none
  | some (.s v) => some v
  | some (.l vs) => some (String.intercalate " " vs)

/-- Lines 58-59: the object is skipped when `at` is falsy, and accepted when
any recognized keyword occurs as a substring of `at` (Python `k in at`). -/
def acceptedType (o : LdObj) : Bool :=
  match atJoined o with
  | none => false
  | some a =>
    a ≠ "" && typeKeywords.any (fun k => containsSeq k.toList a.toList)

/-- Lines 62-65, values contributed by one of `servesCuisine`/`category`:
a list contributes all its members (`str(x)` is the identity on strings), a
scalar contributes itself when truthy. -/
def catVals : Option StrOrList → List String
  | none => []
  | some (.l vs) => vs
  | some (.s v) => if v = "" then [] else [v]

/-- Lines 61-65: `cats`, the concatenation of the two fields' values in
encounter order (no deduplication is performed here). -/
def catsList (o : LdObj) : List String :=
  catVals o.servesCuisine ++ catVals o.category

/-- Line 66: `", ".join(cats) if cats else None`. -/
def catsOut (o : LdObj) : Option String :=
  if catsList o = [] then none
  else some (String.intercalate ", " (catsList o))

/-- Lines 67-71: city/region assembly from the address sub-object. -/
def cityRegionOf (o : LdObj) : Option String :=
  match o.address with
  | none => none
  | some a =>
    let city := pyOrS (pyOrS a.addressLocality a.locality) a.addressRegion
    let region := a.addressRegion
    match city, region with
    | some c, some r =>
      if c ≠ "" ∧ r ≠ "" ∧ c ≠ r then some (c ++ ", " ++ r)
      else if c ≠ "" then some c else region
    | some c, none => if c ≠ "" then some c else none
    | none, _ => region

/-- Lines 60-75: the fields derived from one accepted object. -/
def extractBiz (o : LdObj) : BizOut :=
  ⟨o.name, catsOut o, cityRegionOf o, o.priceRange,
   (match o.aggregateRating with
    | none => none
    | some g => pf g.ratingValue),
   (match o.aggregateRating with
    | none => none
    | some g => pi (pyOrS g.reviewCount g.ratingCount))⟩

/-- Source `parse.py` lines 47-77, `parse_jsonld`, over the in-order list of
successfully parsed metadata objects (malformed blocks are skipped by the
`try`, and a script's list value is iterated in place, so the scan is a
single flat list): the first accepted object's fields are returned
immediately; if none is accepted the all-`None` record is returned. -/
def parse_jsonld : List LdObj → BizOut
  | [] => emptyBizOut
  | o :: os => if acceptedType o then extractBiz o else parse_jsonld os

/-- The assembled business record of `main` (lines 166-173). -/
structure Business where
  business_name : Option String
  categories : Option String
  city_region : Option String
  price_range : Option String
  overall_rating : Option ℚ
  total_reviews : Option ℤ
deriving DecidableEq

/-- Source `parse.py` lines 166-173: each business field is
`ld.get(...) or dom.get(...)` under Python truthiness. -/
def assembleBusiness (ld dom : BizOut) : Business :=
  ⟨pyOrS ld.name dom.name,
   pyOrS ld.categories dom.categories,
   pyOrS ld.city_region dom.city_region,
   pyOrS ld.price_range dom.price_range,
   pyOrQ ld.overall_rating dom.overall_rating,
   pyOrZ ld.total_review_count dom.total_review_count⟩

/-! ### Concrete sample inputs used in the closed theorems -/

/-- A JSON-LD object with no `@type`: skipped by the extractor. -/
def oNoType : LdObj := ⟨none, some "Skipped", none, none, none, none, none⟩

/-- A well-formed accepted restaurant object. -/
def oCafe : LdObj :=
  ⟨some (.s "Restaurant"), some "Cafe X", none, none, none, some "$$",
   some ⟨some "4.3", some "120", none⟩⟩

/-- An accepted object whose aggregate rating value is the falsy `0`. -/
def oZeroRating : LdObj :=
  ⟨some (.s "Restaurant"), some "Cafe X", none, none, none, none,
   some ⟨some "0", some "120", none⟩⟩

/-- A later accepted object, used to show short-circuiting. -/
def oHotel : LdObj :=
  ⟨some (.s "Hotel"), some "Other Place", none, none, none, none, none⟩

/-- An accepted object listing "Pizza" in both category fields. -/
def oPizzaTwice : LdObj :=
  ⟨some (.s "Restaurant"), some "Cafe X", some (.l ["Pizza"]),
   some (.s "Pizza"), none, none, none⟩

/-- A DOM-heuristic business record with every field truthy. -/
def domSample : BizOut :=
  ⟨some "Dom Name", some "Dom Cats", some "Dom City", some "$", some 4,
   some 7⟩

/-- A review row; its date has no trailing whitespace. -/
def rowGoodA : Row :=
  ⟨some "alice", none, some "Jan 1, 2020", some "good food here"⟩

/-- A review row whose trimmed text and trimmed date agree with `rowGoodA`
but whose raw date carries a trailing space and whose reviewer differs. -/
def rowGoodB : Row :=
  ⟨some "bob", none, some "Jan 1, 2020 ", some " good food here "⟩

/-- A review block whose text is shorter than 20 characters and free of
denylisted substrings. -/
def blockShort : Block := ⟨some "Alice", some "ok", none, none, none⟩

/-- A review block whose text contains the denylisted "verified". -/
def blockJunk : Block :=
  ⟨some "Alice", some "This Verified purchase text is long enough", none,
   none, none⟩

/-- A review block whose text contains "best of" and "things to do". -/
def blockBestOf : Block :=
  ⟨some "Alice", some "the best of things to do here", none, none, none⟩

/-! ### Character-class and scanner facts -/

theorem isDigitB_iff {c : Char} :
    isDigitB c = true ↔ 48 ≤ c.toNat ∧ c.toNat ≤ 57 := by
  simp [isDigitB]

theorem isPySpace_iff {c : Char} :
    isPySpace c = true ↔
      c.toNat = 32 ∨ c.toNat = 9 ∨ c.toNat = 10 ∨ c.toNat = 13 ∨
      c.toNat = 11 ∨ c.toNat = 12 := by
  simp only [isPySpace, Bool.or_eq_true, decide_eq_true_eq]
  tauto

theorem toNat_eq_of_eq {c d : Char} (h : c = d) : c.toNat = d.toNat :=
  congrArg Char.toNat h

theorem isPySpace_not_digit {c : Char} (h : isPySpace c = true) :
    isDigitB c = false := by
  rw [isPySpace_iff] at h
  by_contra hb
  rw [Bool.not_eq_false, isDigitB_iff] at hb
  omega

theorem isPySpace_ne_dot {c : Char} (h : isPySpace c = true) : c ≠ '.' := by
  intro he
  rw [isPySpace_iff] at h
  have : c.toNat = 46 := toNat_eq_of_eq he
  omega

theorem ciCharEq_toNat {p c : Char} (h : ciCharEq p c = true) :
    c.toNat = p.toNat ∨ c.toNat + 32 = p.toNat := by
  unfold ciCharEq at h
  rcases Bool.or_eq_true_iff.mp h with h | h
  · exact Or.inl (toNat_eq_of_eq (of_decide_eq_true h))
  · simp only [Bool.and_eq_true, decide_eq_true_eq] at h
    exact Or.inr h.2

theorem ciLeadsWith_cons_head {p c : Char} {ps t : List Char}
    (h : ciLeadsWith (p :: ps) (c :: t) = true) : ciCharEq p c = true := by
  simp only [ciLeadsWith, Bool.and_eq_true] at h
  exact h.1

theorem ciLeadsWith_nil_false {p : Char} {ps : List Char} :
    ciLeadsWith (p :: ps) [] = false := rfl

/-- A tail satisfying the keyword alternation starts with `s`, `S`, `o` or
`O`; in particular its head is not a digit, not whitespace and not a dot. -/
theorem kwHead_facts {tail : List Char} (h : ratingKeywordAt tail = true) :
    ∃ c t, tail = c :: t ∧ isDigitB c = false ∧ isPySpace c = false ∧
      c ≠ '.' := by
  cases tail with
  | nil =>
    exact absurd h (by decide)
  | cons c t =>
    refine ⟨c, t, rfl, ?_⟩
    unfold ratingKeywordAt at h
    have hn : c.toNat = 115 ∨ c.toNat = 83 ∨ c.toNat = 111 ∨ c.toNat = 79 := by
      rcases Bool.or_eq_true_iff.mp h with h | h
      · have := ciCharEq_toNat (ciLeadsWith_cons_head h)
        have hs : ('s').toNat = 115 := by decide
        omega
      · have := ciCharEq_toNat (ciLeadsWith_cons_head h)
        have ho : ('o').toNat = 111 := by decide
        omega
    refine ⟨?_, ?_, ?_⟩
    · by_contra hb
      rw [Bool.not_eq_false, isDigitB_iff] at hb
      omega
    · by_contra hb
      rw [Bool.not_eq_false, isPySpace_iff] at hb
      omega
    · intro he
      have : c.toNat = 46 := toNat_eq_of_eq he
      omega

theorem takeWhile_all_append (p : Char → Bool) (ds rest : List Char)
    (h1 : ∀ c ∈ ds, p c = true)
    (h2 : ∀ c, rest.head? = some c → p c = false) :
    (ds ++ rest).takeWhile p = ds := by
  induction ds with
  | nil =>
    cases rest with
    | nil => rfl
    | cons r t =>
      simp [List.takeWhile_cons, h2 r rfl]
  | cons d ds ih =>
    have hd := h1 d (List.mem_cons_self d ds)
    have ih2 := ih (fun c hc => h1 c (List.mem_cons_of_mem d hc))
    simp [List.takeWhile_cons, hd, ih2]

theorem dropWhile_all_append (p : Char → Bool) (ds rest : List Char)
    (h1 : ∀ c ∈ ds, p c = true)
    (h2 : ∀ c, rest.head? = some c → p c = false) :
    (ds ++ rest).dropWhile p = rest := by
  induction ds with
  | nil =>
    cases rest with
    | nil => rfl
    | cons r t =>
      simp [List.dropWhile_cons, h2 r rfl]
  | cons d ds ih =>
    have hd := h1 d (List.mem_cons_self d ds)
    have ih2 := ih (fun c hc => h1 c (List.mem_cons_of_mem d hc))
    simp [List.dropWhile_cons, hd, ih2]

theorem leadsWith_append (pat rest : List Char) :
    leadsWith pat (pat ++ rest) = true := by
  induction pat with
  | nil => rfl
  | cons p ps ih => simp [leadsWith, ih]

/-! ### The rating-label regex: anchored soundness and completeness -/

theorem ratingTailCheck_eval {ws tail : List Char} (ds : List Char)
    (frac : Option (List Char))
    (hws : ∀ c ∈ ws, isPySpace c = true)
    (hkw : ratingKeywordAt tail = true) :
    ratingTailCheck (ws ++ tail) ds frac = some (numValQ ds frac) := by
  obtain ⟨k, t, htail, hkd, hks, hkdot⟩ := kwHead_facts hkw
  have hdw : (ws ++ tail).dropWhile isPySpace = tail := by
    apply dropWhile_all_append _ _ _ hws
    intro c hc
    rw [htail] at hc
    simp only [List.head?_cons, Option.some.injEq] at hc
    rw [← hc]
    exact hks
  unfold ratingTailCheck
  rw [hdw, if_pos hkw]

theorem ratingTailCheck_sound {rest ds : List Char} {frac : Option (List Char)}
    {v : ℚ} (h : ratingTailCheck rest ds frac = some v) :
    ∃ ws tail, rest = ws ++ tail ∧ (∀ c ∈ ws, isPySpace c = true) ∧
      ratingKeywordAt tail = true ∧ v = numValQ ds frac := by
  unfold ratingTailCheck at h
  by_cases hkw : ratingKeywordAt (rest.dropWhile isPySpace) = true
  · rw [if_pos hkw] at h
    simp only [Option.some.injEq] at h
    exact ⟨rest.takeWhile isPySpace, rest.dropWhile isPySpace,
      (List.takeWhile_append_dropWhile _ _).symm,
      fun c hc => List.mem_takeWhile_imp hc, hkw, h.symm⟩
  · rw [if_neg hkw] at h
    exact absurd h (by simp)

theorem ratingMatchAt_complete {ds ws tail : List Char}
    {frac : Option (List Char)}
    (hds : ds ≠ []) (hdsd : ∀ c ∈ ds, isDigitB c = true)
    (hfrac : ∀ fs, frac = some fs → fs ≠ [] ∧ ∀ c ∈ fs, isDigitB c = true)
    (hws : ∀ c ∈ ws, isPySpace c = true)
    (hkw : ratingKeywordAt tail = true) :
    ratingMatchAt (ds ++ fracChars frac ++ ws ++ tail) =
      some (numValQ ds frac) := by
  obtain ⟨k, t, htail, hkd, hks, hkdot⟩ := kwHead_facts hkw
  have hwt_head : ∀ c, (ws ++ tail).head? = some c → isDigitB c = false := by
    intro c hc
    cases ws with
    | nil =>
      rw [List.nil_append, htail] at hc
      simp only [List.head?_cons, Option.some.injEq] at hc
      rw [← hc]; exact hkd
    | cons w ws2 =>
      simp only [List.cons_append, List.head?_cons, Option.some.injEq] at hc
      rw [← hc]
      exact isPySpace_not_digit (hws w (List.mem_cons_self w ws2))
  have hwt_dot : ∀ c, (ws ++ tail).head? = some c → c ≠ '.' := by
    intro c hc
    cases ws with
    | nil =>
      rw [List.nil_append, htail] at hc
      simp only [List.head?_cons, Option.some.injEq] at hc
      rw [← hc]; exact hkdot
    | cons w ws2 =>
      simp only [List.cons_append, List.head?_cons, Option.some.injEq] at hc
      rw [← hc]
      exact isPySpace_ne_dot (hws w (List.mem_cons_self w ws2))
  cases frac with
  | none =>
    have hfc : fracChars (none : Option (List Char)) = [] := rfl
    rw [hfc, List.append_nil]
    rw [List.append_assoc] at *
    have htake : (ds ++ (ws ++ tail)).takeWhile isDigitB = ds :=
      takeWhile_all_append _ _ _ hdsd hwt_head
    have hdrop : (ds ++ (ws ++ tail)).dropWhile isDigitB = ws ++ tail :=
      dropWhile_all_append _ _ _ hdsd hwt_head
    unfold ratingMatchAt
    simp only [htake, hdrop]
    rw [if_neg (by simp [hds])]
    have hne : ws ++ tail ≠ [] := by
      rw [htail]; cases ws <;> simp
    split
    · rename_i r2 heq
      exfalso
      cases ws with
      | nil =>
        rw [List.nil_append, htail] at heq
        injection heq with h1 h2
        exact hkdot h1
      | cons w ws2 =>
        rw [List.cons_append] at heq
        injection heq with h1 h2
        exact isPySpace_ne_dot (hws w (List.mem_cons_self w ws2)) h1
    · exact ratingTailCheck_eval ds none hws hkw
  | some fs =>
    obtain ⟨hfs1, hfs2⟩ := hfrac fs rfl
    have hfc : fracChars (some fs) = '.' :: fs := rfl
    have hshape : ds ++ fracChars (some fs) ++ ws ++ tail =
        ds ++ ('.' :: (fs ++ (ws ++ tail))) := by
      rw [hfc]; simp [List.append_assoc]
    rw [hshape]
    have hdot_head : ∀ c, ('.' :: (fs ++ (ws ++ tail))).head? = some c →
        isDigitB c = false := by
      intro c hc
      simp only [List.head?_cons, Option.some.injEq] at hc
      rw [← hc]; decide
    have htake : (ds ++ ('.' :: (fs ++ (ws ++ tail)))).takeWhile isDigitB =
        ds := takeWhile_all_append _ _ _ hdsd hdot_head
    have hdrop : (ds ++ ('.' :: (fs ++ (ws ++ tail)))).dropWhile isDigitB =
        '.' :: (fs ++ (ws ++ tail)) :=
      dropWhile_all_append _ _ _ hdsd hdot_head
    unfold ratingMatchAt
    simp only [htake, hdrop]
    rw [if_neg (by simp [hds])]
    have htake2 : (fs ++ (ws ++ tail)).takeWhile isDigitB = fs :=
      takeWhile_all_append _ _ _ hfs2 hwt_head
    have hdrop2 : (fs ++ (ws ++ tail)).dropWhile isDigitB = ws ++ tail :=
      dropWhile_all_append _ _ _ hfs2 hwt_head
    simp only [htake2, hdrop2]
    rw [if_neg (by simp [hfs1])]
    exact ratingTailCheck_eval ds (some fs) hws hkw

theorem ratingMatchAt_sound {cs : List Char} {v : ℚ}
    (h : ratingMatchAt cs = some v) :
    ∃ ds frac ws tail, AriaDecomp cs ds frac ws tail ∧
      v = numValQ ds frac := by
  unfold ratingMatchAt at h
  by_cases hde : cs.takeWhile isDigitB = []
  · rw [if_pos (by simp [hde])] at h
    exact absurd h (by simp)
  · rw [if_neg (by simp [hde])] at h
    have hsplit := List.takeWhile_append_dropWhile isDigitB cs
    have hdsd : ∀ c ∈ cs.takeWhile isDigitB, isDigitB c = true :=
      fun c hc => List.mem_takeWhile_imp hc
    split at h
    · rename_i r2 heq
      by_cases hfe : r2.takeWhile isDigitB = []
      · rw [if_pos (by simp [hfe])] at h
        obtain ⟨ws, tail, hrest, hws, hkw, hv⟩ := ratingTailCheck_sound h
        refine ⟨cs.takeWhile isDigitB, none, ws, tail, ⟨?_, hde, hdsd,
          by simp, hws, hkw⟩, hv⟩
        rw [show fracChars none = [] from rfl, List.append_nil,
          List.append_assoc, ← hrest, hsplit]
      · rw [if_neg (by simp [hfe])] at h
        obtain ⟨ws, tail, hrest, hws, hkw, hv⟩ := ratingTailCheck_sound h
        refine ⟨cs.takeWhile isDigitB, some (r2.takeWhile isDigitB), ws, tail,
          ⟨?_, hde, hdsd, ?_, hws, hkw⟩, hv⟩
        · have hr2 : r2.takeWhile isDigitB ++ (ws ++ tail) = r2 := by
            rw [← hrest]
            exact List.takeWhile_append_dropWhile isDigitB r2
          rw [show fracChars (some (r2.takeWhile isDigitB)) =
            '.' :: r2.takeWhile isDigitB from rfl]
          simp only [List.append_assoc, List.cons_append]
          rw [hr2, ← heq, hsplit]
        · intro fs hfs
          cases hfs
          exact ⟨hfe, fun c hc => List.mem_takeWhile_imp hc⟩
    · obtain ⟨ws, tail, hrest, hws, hkw, hv⟩ := ratingTailCheck_sound h
      refine ⟨cs.takeWhile isDigitB, none, ws, tail, ⟨?_, hde, hdsd,
        by simp, hws, hkw⟩, hv⟩
      rw [show fracChars none = [] from rfl, List.append_nil,
        List.append_assoc, ← hrest, hsplit]

theorem ratingSearch_cons_some {c : Char} {cs : List Char} {v : ℚ}
    (h : ratingMatchAt (c :: cs) = some v) :
    ratingSearch (c :: cs) = some v := by
  simp only [ratingSearch, h]

theorem ratingSearch_cons_none {c : Char} {cs : List Char}
    (h : ratingMatchAt (c :: cs) = none) :
    ratingSearch (c :: cs) = ratingSearch cs := by
  simp only [ratingSearch, h]

theorem ratingSearch_from_pos {pre rest : List Char} {v : ℚ}
    (hm : ratingMatchAt rest = some v)
    (hpre : ∀ i, i < pre.length → ratingMatchAt ((pre ++ rest).drop i) = none) :
    ratingSearch (pre ++ rest) = some v := by
  induction pre with
  | nil =>
    cases rest with
    | nil => exact Option.noConfusion hm
    | cons c cs => exact ratingSearch_cons_some hm
  | cons p ps ih =>
    have h0 : ratingMatchAt (p :: (ps ++ rest)) = none := by
      have := hpre 0 (by simp)
      simpa using this
    rw [List.cons_append, ratingSearch_cons_none h0]
    exact ih (fun i hi => by
      have := hpre (i + 1) (by simp only [List.length_cons]; omega)
      simpa using this)

theorem ratingSearch_sound {l : List Char} {v : ℚ}
    (h : ratingSearch l = some v) :
    ∃ pre rest, l = pre ++ rest ∧ ratingMatchAt rest = some v := by
  induction l with
  | nil => exact Option.noConfusion h
  | cons c cs ih =>
    cases hm : ratingMatchAt (c :: cs) with
    | some w =>
      rw [ratingSearch_cons_some hm] at h
      simp only [Option.some.injEq] at h
      exact ⟨[], c :: cs, rfl, by rw [hm, h]⟩
    | none =>
      rw [ratingSearch_cons_none hm] at h
      obtain ⟨pre, rest, hl, hmm⟩ := ih h
      exact ⟨c :: pre, rest, by rw [List.cons_append, ← hl], hmm⟩

/-! ### Nonnegativity of extracted ratings -/

theorem numValQ_nonneg (ds : List Char) (frac : Option (List Char)) :
    0 ≤ numValQ ds frac := by
  unfold numValQ
  rw [Rat.mkRat_eq_div]
  exact div_nonneg (by positivity) (by positivity)

theorem ratingSearch_nonneg {l : List Char} {v : ℚ}
    (h : ratingSearch l = some v) : 0 ≤ v := by
  obtain ⟨pre, rest, hl, hm⟩ := ratingSearch_sound h
  obtain ⟨ds, frac, ws, tail, hd, hv⟩ := ratingMatchAt_sound hm
  rw [hv]
  exact numValQ_nonneg ds frac

/-! ### The bubble-class regex -/

theorem bubbleMatchAt_complete {ds post : List Char}
    (hds : ds ≠ []) (hdsd : ∀ c ∈ ds, isDigitB c = true)
    (hpost : ∀ c, post.head? = some c → isDigitB c = false) :
    bubbleMatchAt ("bubble_".toList ++ (ds ++ post)) = some (digitsVal ds) := by
  unfold bubbleMatchAt
  rw [if_pos (leadsWith_append _ _)]
  have hdrop : ("bubble_".toList ++ (ds ++ post)).drop 7 = ds ++ post := by
    have h7 : ("bubble_".toList).length = 7 := rfl
    rw [← h7]
    exact List.drop_left _ _
  simp only [hdrop, takeWhile_all_append _ _ _ hdsd hpost]
  rw [if_neg (by simp [hds])]

theorem bubbleSearch_cons_some {c : Char} {cs : List Char} {n : ℕ}
    (h : bubbleMatchAt (c :: cs) = some n) :
    bubbleSearch (c :: cs) = some (mkRat n 10) := by
  simp only [bubbleSearch, h]

theorem bubbleSearch_cons_none {c : Char} {cs : List Char}
    (h : bubbleMatchAt (c :: cs) = none) :
    bubbleSearch (c :: cs) = bubbleSearch cs := by
  simp only [bubbleSearch, h]

theorem bubbleSearch_from_pos {pre rest : List Char} {n : ℕ}
    (hm : bubbleMatchAt rest = some n)
    (hpre : ∀ i, i < pre.length → bubbleMatchAt ((pre ++ rest).drop i) = none) :
    bubbleSearch (pre ++ rest) = some (mkRat n 10) := by
  induction pre with
  | nil =>
    cases rest with
    | nil => exact Option.noConfusion hm
    | cons c cs => exact bubbleSearch_cons_some hm
  | cons p ps ih =>
    have h0 : bubbleMatchAt (p :: (ps ++ rest)) = none := by
      have := hpre 0 (by simp)
      simpa using this
    rw [List.cons_append, bubbleSearch_cons_none h0]
    exact ih (fun i hi => by
      have := hpre (i + 1) (by simp only [List.length_cons]; omega)
      simpa using this)

theorem bubbleSearch_nonneg {l : List Char} {v : ℚ}
    (h : bubbleSearch l = some v) : 0 ≤ v := by
  induction l with
  | nil => exact Option.noConfusion h
  | cons c cs ih =>
    cases hm : bubbleMatchAt (c :: cs) with
    | some n =>
      rw [bubbleSearch_cons_some hm] at h
      simp only [Option.some.injEq] at h
      rw [← h, Rat.mkRat_eq_div]
      positivity
    | none =>
      rw [bubbleSearch_cons_none hm] at h
      exact ih h

/-! ### Numeric coercion: `float`/`int` on decimal numerals -/

theorem digit_not_space {c : Char} (h : isDigitB c = true) :
    isPySpace c = false := by
  rw [isDigitB_iff] at h
  by_contra hb
  rw [Bool.not_eq_false, isPySpace_iff] at hb
  omega

theorem digitsValAux_lt {cs : List Char}
    (h : ∀ c ∈ cs, isDigitB c = true) :
    ∀ a, digitsValAux a cs < (a + 1) * 10 ^ cs.length := by
  induction cs with
  | nil =>
    intro a
    show a < (a + 1) * 10 ^ (0 : ℕ)
    simp
  | cons c cs ih =>
    intro a
    have hc := h c (List.mem_cons_self c cs)
    rw [isDigitB_iff] at hc
    have step := ih (fun x hx => h x (List.mem_cons_of_mem c hx))
      (10 * a + (c.toNat - 48))
    have hle : 10 * a + (c.toNat - 48) + 1 ≤ 10 * (a + 1) := by omega
    have hmul : (10 * a + (c.toNat - 48) + 1) * 10 ^ cs.length ≤
        (10 * (a + 1)) * 10 ^ cs.length := mul_le_mul_right' hle _
    have heq : digitsValAux a (c :: cs) =
        digitsValAux (10 * a + (c.toNat - 48)) cs := rfl
    have hfin : (10 * (a + 1)) * 10 ^ cs.length =
        (a + 1) * 10 ^ (c :: cs).length := by
      rw [List.length_cons, pow_succ]; ring
    rw [heq, ← hfin]
    exact lt_of_lt_of_le step hmul

theorem digitsVal_lt {ds : List Char} (h : ∀ c ∈ ds, isDigitB c = true) :
    digitsVal ds < 10 ^ ds.length := by
  have := digitsValAux_lt h 0
  simpa [digitsVal] using this

theorem fracVal_nonneg (fs : List Char) : 0 ≤ fracVal fs := by
  unfold fracVal
  positivity

theorem fracVal_lt_one {fs : List Char}
    (h : ∀ c ∈ fs, isDigitB c = true) : fracVal fs < 1 := by
  unfold fracVal
  rw [div_lt_one (by positivity)]
  exact_mod_cast digitsVal_lt h

theorem stripPy_eq_self {cs : List Char}
    (h1 : ∀ c, cs.head? = some c → isPySpace c = false)
    (h2 : ∀ c, cs.getLast? = some c → isPySpace c = false) :
    stripPy cs = cs := by
  unfold stripPy
  have hd : cs.dropWhile isPySpace = cs := by
    cases cs with
    | nil => rfl
    | cons c cs2 => simp [List.dropWhile_cons, h1 c rfl]
  rw [hd]
  cases hrev : cs.reverse with
  | nil => simp [List.reverse_eq_nil_iff.mp hrev]
  | cons d t =>
    have hdl : cs.getLast? = some d := by
      rw [← List.head?_reverse, hrev]; rfl
    have hx : List.dropWhile isPySpace (d :: t) = d :: t := by
      simp [List.dropWhile_cons, h2 d hdl]
    rw [hx, ← hrev, List.reverse_reverse]

theorem pyMantissa_eval {ds : List Char} {frac : Option (List Char)}
    (hds : ds ≠ []) (hdsd : ∀ c ∈ ds, isDigitB c = true)
    (hfrac : ∀ fs, frac = some fs → ∀ c ∈ fs, isDigitB c = true) :
    pyMantissa (ds ++ fracChars frac) = some (numValQ ds frac) := by
  cases frac with
  | none =>
    rw [show fracChars none = [] from rfl, List.append_nil]
    unfold pyMantissa
    have htake : ds.takeWhile isDigitB = ds := by
      have := takeWhile_all_append isDigitB ds [] hdsd (by simp)
      simpa using this
    have hdrop : ds.dropWhile isDigitB = [] := by
      have := dropWhile_all_append isDigitB ds [] hdsd (by simp)
      simpa using this
    simp only [htake, hdrop]
    rw [if_neg (by simp [hds])]
    simp [numValQ, fracDigits]
  | some fs =>
    have hffs := hfrac fs rfl
    rw [show fracChars (some fs) = '.' :: fs from rfl]
    have hdot : ∀ c, (('.' :: fs) : List Char).head? = some c →
        isDigitB c = false := by
      intro c hc
      simp only [List.head?_cons, Option.some.injEq] at hc
      rw [← hc]; decide
    have htake : (ds ++ '.' :: fs).takeWhile isDigitB = ds :=
      takeWhile_all_append _ _ _ hdsd hdot
    have hdrop : (ds ++ '.' :: fs).dropWhile isDigitB = '.' :: fs :=
      dropWhile_all_append _ _ _ hdsd hdot
    unfold pyMantissa
    simp only [htake, hdrop]
    have htake2 : fs.takeWhile isDigitB = fs := by
      have := takeWhile_all_append isDigitB fs [] hffs (by simp)
      simpa using this
    have hdrop2 : fs.dropWhile isDigitB = [] := by
      have := dropWhile_all_append isDigitB fs [] hffs (by simp)
      simpa using this
    simp only [htake2, hdrop2]
    rw [if_pos (by simp [hds])]
    simp [numValQ, fracDigits]

theorem digitsValAux_closed :
    ∀ (fs : List Char) (a : ℕ),
    digitsValAux a fs = a * 10 ^ fs.length + digitsVal fs := by
  intro fs
  induction fs with
  | nil =>
    intro a
    show a = a * 10 ^ (0 : ℕ) + 0
    simp
  | cons c cs ih =>
    intro a
    have h1 : digitsValAux a (c :: cs) =
        digitsValAux (10 * a + (c.toNat - 48)) cs := rfl
    have h2 : digitsVal (c :: cs) =
        digitsValAux (10 * 0 + (c.toNat - 48)) cs := rfl
    rw [h1, ih (10 * a + (c.toNat - 48)), h2, ih (10 * 0 + (c.toNat - 48)),
      List.length_cons, pow_succ]
    ring

theorem digitsVal_append (ds fs : List Char) :
    digitsVal (ds ++ fs) = digitsVal ds * 10 ^ fs.length + digitsVal fs := by
  have h : ∀ (a : ℕ) (l1 l2 : List Char),
      digitsValAux a (l1 ++ l2) = digitsValAux (digitsValAux a l1) l2 := by
    intro a l1
    induction l1 generalizing a with
    | nil => intro l2; rfl
    | cons c cs ih => intro l2; exact ih _ l2
  show digitsValAux 0 (ds ++ fs) = _
  rw [h 0 ds fs, digitsValAux_closed fs (digitsValAux 0 ds)]
  rfl

/-- The numeral value as integer part plus fraction. -/
theorem numValQ_eq (ds : List Char) (frac : Option (List Char)) :
    numValQ ds frac = (digitsVal ds : ℚ) + fracVal (fracDigits frac) := by
  unfold numValQ fracVal
  rw [Rat.mkRat_eq_div, digitsVal_append]
  have hp : ((10 : ℚ) ^ (fracDigits frac).length) ≠ 0 := by positivity
  push_cast
  field_simp

theorem digit_ne_minus {c : Char} (h : isDigitB c = true) : c ≠ '-' := by
  intro he
  rw [isDigitB_iff] at h
  have : c.toNat = 45 := toNat_eq_of_eq he
  omega

theorem digit_ne_plus {c : Char} (h : isDigitB c = true) : c ≠ '+' := by
  intro he
  rw [isDigitB_iff] at h
  have : c.toNat = 43 := toNat_eq_of_eq he
  omega

theorem numBody_mem_not_space {ds : List Char} {frac : Option (List Char)}
    (hdsd : ∀ c ∈ ds, isDigitB c = true)
    (hfrac : ∀ fs, frac = some fs → ∀ c ∈ fs, isDigitB c = true) :
    ∀ c ∈ ds ++ fracChars frac, isPySpace c = false := by
  intro c hc
  rw [List.mem_append] at hc
  rcases hc with hc | hc
  · exact digit_not_space (hdsd c hc)
  · cases frac with
    | none => simp [fracChars] at hc
    | some fs =>
      rw [show fracChars (some fs) = '.' :: fs from rfl] at hc
      rcases List.mem_cons.mp hc with hc | hc
      · rw [hc]; decide
      · exact digit_not_space (hfrac fs rfl c hc)

theorem pyFloatChars_eval_pos {ds : List Char} {frac : Option (List Char)}
    (hds : ds ≠ []) (hdsd : ∀ c ∈ ds, isDigitB c = true)
    (hfrac : ∀ fs, frac = some fs → ∀ c ∈ fs, isDigitB c = true) :
    pyFloatChars (ds ++ fracChars frac) = some (numValQ ds frac) := by
  have hmem := numBody_mem_not_space hdsd hfrac
  have hstrip : stripPy (ds ++ fracChars frac) = ds ++ fracChars frac :=
    stripPy_eq_self
      (fun c hc => hmem c (List.mem_of_mem_head? hc))
      (fun c hc => hmem c (List.mem_of_mem_getLast? hc))
  unfold pyFloatChars
  rw [hstrip]
  cases hd : ds with
  | nil => exact absurd hd hds
  | cons d ds2 =>
    subst hd
    have hdd : isDigitB d = true := hdsd d (List.mem_cons_self d ds2)
    rw [List.cons_append]
    split
    · rename_i r heq
      injection heq with hh _
      exact absurd hh (digit_ne_minus hdd)
    · rename_i r heq
      injection heq with hh _
      exact absurd hh (digit_ne_plus hdd)
    · rw [← List.cons_append]
      exact pyMantissa_eval hds hdsd hfrac

theorem pyFloatChars_eval_neg {ds : List Char} {frac : Option (List Char)}
    (hds : ds ≠ []) (hdsd : ∀ c ∈ ds, isDigitB c = true)
    (hfrac : ∀ fs, frac = some fs → ∀ c ∈ fs, isDigitB c = true) :
    pyFloatChars ('-' :: (ds ++ fracChars frac)) =
      some (-(numValQ ds frac)) := by
  have hmem := numBody_mem_not_space hdsd hfrac
  have hmem2 : ∀ c ∈ '-' :: (ds ++ fracChars frac), isPySpace c = false := by
    intro c hc
    rcases List.mem_cons.mp hc with hc | hc
    · rw [hc]; decide
    · exact hmem c hc
  have hstrip : stripPy ('-' :: (ds ++ fracChars frac)) =
      '-' :: (ds ++ fracChars frac) :=
    stripPy_eq_self
      (fun c hc => hmem2 c (List.mem_of_mem_head? hc))
      (fun c hc => hmem2 c (List.mem_of_mem_getLast? hc))
  unfold pyFloatChars
  rw [hstrip]
  simp only [pyMantissa_eval hds hdsd hfrac, Option.map_some']

theorem truncQ_add_frac (n : ℕ) (f : ℚ) (h0 : 0 ≤ f) (h1 : f < 1) :
    truncQ ((n : ℚ) + f) = n := by
  unfold truncQ
  have hnn : (0 : ℚ) ≤ (n : ℚ) + f := add_nonneg (Nat.cast_nonneg n) h0
  rw [if_neg (by push_neg; exact hnn)]
  rw [Int.floor_eq_iff]
  constructor
  · push_cast; linarith
  · push_cast; linarith

theorem truncQ_neg {q : ℚ} (h : 0 ≤ q) : truncQ (-q) = -(truncQ q) := by
  unfold truncQ
  rcases eq_or_lt_of_le h with h | h
  · rw [← h]; simp
  · rw [if_pos (by linarith), if_neg (by linarith), Int.ceil_neg]

/-! ### Deduplication -/

theorem dedupeGo_cons_mem {seen : List (String × String)} {r : Row}
    {rs : List Row} (h : dedupeKey r ∈ seen) :
    dedupeGo seen (r :: rs) = dedupeGo seen rs := by
  simp only [dedupeGo, if_pos h]

theorem dedupeGo_cons_not_mem {seen : List (String × String)} {r : Row}
    {rs : List Row} (h : dedupeKey r ∉ seen) :
    dedupeGo seen (r :: rs) = r :: dedupeGo (dedupeKey r :: seen) rs := by
  simp only [dedupeGo, if_neg h]

theorem keepFirstByKey_cons (r : Row) (rs : List Row) :
    keepFirstByKey (r :: rs) =
      r :: keepFirstByKey (rs.filter (fun x => dedupeKey x ≠ dedupeKey r)) := by
  rw [keepFirstByKey]

theorem keepFirstByKey_nil : keepFirstByKey [] = [] := by
  rw [keepFirstByKey]

theorem dedupeGo_eq_keepFirst :
    ∀ (l : List Row) (seen : List (String × String)),
    dedupeGo seen l =
      keepFirstByKey (l.filter (fun r => decide (dedupeKey r ∉ seen))) := by
  intro l
  induction l with
  | nil =>
    intro seen
    rw [List.filter_nil, keepFirstByKey_nil]
    rfl
  | cons r rs ih =>
    intro seen
    by_cases hs : dedupeKey r ∈ seen
    · rw [dedupeGo_cons_mem hs, List.filter_cons, if_neg (by simp [hs])]
      exact ih seen
    · rw [dedupeGo_cons_not_mem hs, List.filter_cons, if_pos (by simp [hs]),
        keepFirstByKey_cons]
      congr 1
      rw [ih (dedupeKey r :: seen), List.filter_filter]
      congr 1
      apply List.filter_congr
      intro x _
      by_cases h1 : dedupeKey x = dedupeKey r <;>
        by_cases h2 : dedupeKey x ∈ seen <;> simp [h1, h2]

theorem dedupe_eq_keepFirstByKey (l : List Row) :
    dedupe l = keepFirstByKey l := by
  show dedupeGo [] l = keepFirstByKey l
  rw [dedupeGo_eq_keepFirst]
  congr 1
  rw [List.filter_eq_self]
  simp

theorem mem_dedupeGo_not_seen :
    ∀ (l : List Row) (seen : List (String × String)) (r : Row),
    r ∈ dedupeGo seen l → dedupeKey r ∉ seen := by
  intro l
  induction l with
  | nil =>
    intro seen r hr
    simp [dedupeGo] at hr
  | cons a rs ih =>
    intro seen r hr
    by_cases hs : dedupeKey a ∈ seen
    · rw [dedupeGo_cons_mem hs] at hr
      exact ih seen r hr
    · rw [dedupeGo_cons_not_mem hs] at hr
      rcases List.mem_cons.mp hr with h | h
      · rw [h]; exact hs
      · have h2 := ih _ r h
        intro hc
        exact h2 (List.mem_cons_of_mem _ hc)

theorem dedupeGo_keys_nodup :
    ∀ (l : List Row) (seen : List (String × String)),
    ((dedupeGo seen l).map dedupeKey).Nodup := by
  intro l
  induction l with
  | nil => intro seen; simp [dedupeGo]
  | cons a rs ih =>
    intro seen
    by_cases hs : dedupeKey a ∈ seen
    · rw [dedupeGo_cons_mem hs]
      exact ih seen
    · rw [dedupeGo_cons_not_mem hs]
      rw [List.map_cons, List.nodup_cons]
      refine ⟨?_, ih _⟩
      intro hmem
      rw [List.mem_map] at hmem
      obtain ⟨r, hr, hk⟩ := hmem
      have := mem_dedupeGo_not_seen rs _ r hr
      exact this (by rw [hk]; exact List.mem_cons_self _ _)

theorem dedupeGo_id :
    ∀ (l : List Row) (seen : List (String × String)),
    (l.map dedupeKey).Nodup → (∀ r ∈ l, dedupeKey r ∉ seen) →
    dedupeGo seen l = l := by
  intro l
  induction l with
  | nil => intro seen _ _; rfl
  | cons a rs ih =>
    intro seen h1 h2
    rw [List.map_cons, List.nodup_cons] at h1
    have hs : dedupeKey a ∉ seen := h2 a (List.mem_cons_self a rs)
    rw [dedupeGo_cons_not_mem hs]
    congr 1
    apply ih _ h1.2
    intro r hr
    rw [List.mem_cons, not_or]
    constructor
    · intro hk
      exact h1.1 (by rw [← hk]; exact List.mem_map_of_mem dedupeKey hr)
    · exact h2 r (List.mem_cons_of_mem a hr)

/-! ### The total-review-count scan -/

theorem guess_total_cons (t : String) (ts : List String) :
    guess_total_reviews (t :: ts) =
      match nodeCount t with
      | some n => some n
      | none => guess_total_reviews ts := by
  by_cases hw : hasReviewWord t = true
  · cases hpi : pi (num_in t) with
    | some n =>
      by_cases hn : n = 0
      · subst hn
        simp [guess_total_reviews, nodeCount, hw, hpi]
      · simp [guess_total_reviews, nodeCount, hw, hpi, hn]
    | none => simp [guess_total_reviews, nodeCount, hw, hpi]
  · rw [Bool.not_eq_true] at hw
    simp [guess_total_reviews, nodeCount, hw]

theorem guess_total_all_none :
    ∀ ts : List String, (∀ t ∈ ts, nodeCount t = none) →
    guess_total_reviews ts = none := by
  intro ts
  induction ts with
  | nil => intro _; rfl
  | cons t ts ih =>
    intro h
    rw [guess_total_cons, h t (List.mem_cons_self t ts)]
    exact ih (fun x hx => h x (List.mem_cons_of_mem t hx))

theorem guess_total_first :
    ∀ (ts1 : List String) (t : String) (ts2 : List String) (n : ℤ),
    (∀ x ∈ ts1, nodeCount x = none) → nodeCount t = some n →
    guess_total_reviews (ts1 ++ t :: ts2) = some n := by
  intro ts1
  induction ts1 with
  | nil =>
    intro t ts2 n _ ht
    rw [List.nil_append, guess_total_cons, ht]
  | cons a ts1 ih =>
    intro t ts2 n h1 ht
    rw [List.cons_append, guess_total_cons, h1 a (List.mem_cons_self a ts1)]
    exact ih t ts2 n (fun x hx => h1 x (List.mem_cons_of_mem a hx)) ht

/-! ### The structured-data extractor and record assembly -/

theorem pyOrS_of_truthy {a b : Option String} (h : pyTruthyStr a = true) :
    pyOrS a b = a := by
  unfold pyOrS
  rw [if_pos h]

theorem pyOrQ_of_truthy {a b : Option ℚ} (h : pyTruthyQ a = true) :
    pyOrQ a b = a := by
  unfold pyOrQ
  rw [if_pos h]

theorem pyOrZ_of_truthy {a b : Option ℤ} (h : pyTruthyZ a = true) :
    pyOrZ a b = a := by
  unfold pyOrZ
  rw [if_pos h]

theorem parse_jsonld_first :
    ∀ (objs1 : List LdObj) (o : LdObj) (objs2 : List LdObj),
    (∀ x ∈ objs1, acceptedType x = false) → acceptedType o = true →
    parse_jsonld (objs1 ++ o :: objs2) = extractBiz o := by
  intro objs1
  induction objs1 with
  | nil =>
    intro o objs2 _ h2
    rw [List.nil_append]
    simp [parse_jsonld, h2]
  | cons a objs1 ih =>
    intro o objs2 h1 h2
    rw [List.cons_append]
    have ha : acceptedType a = false := h1 a (List.mem_cons_self a objs1)
    simp only [parse_jsonld, ha, Bool.false_eq_true, if_false]
    exact ih o objs2 (fun x hx => h1 x (List.mem_cons_of_mem a hx)) h2

/-! ## The claims -/

/-- C1 counterexample: the claim that every business field derived from the
accepted structured object is the value used in the assembled record fails
for falsy derived values.  The accepted object derives `overall_rating = 0`
(from `ratingValue = "0"`), yet the assembled record carries the DOM
heuristic's `4`, because `ld.get(...) or dom.get(...)` treats `0.0` as
false. -/
theorem c1_falsy_field_counterexample :
    (parse_jsonld [oZeroRating]).overall_rating = some 0 ∧
    (assembleBusiness (parse_jsonld [oZeroRating]) domSample).overall_rating =
      some 4 := by
  constructor <;> decide

/-- C1 (amended): scanning stops at the first acceptable metadata object —
objects after it never influence the result — and each business field
derived from that object is the value used in the assembled record,
taking precedence over the DOM heuristic value, whenever the derived value
is truthy (present, nonempty, nonzero); a falsy derived field falls back to
the DOM value. -/
theorem c1_truthy_precedence_short_circuit
    (objs1 objs2 : List LdObj) (o : LdObj) (dom : BizOut)
    (h1 : ∀ x ∈ objs1, acceptedType x = false)
    (h2 : acceptedType o = true) :
    parse_jsonld (objs1 ++ o :: objs2) = extractBiz o ∧
    (pyTruthyStr (extractBiz o).name = true →
      (assembleBusiness (parse_jsonld (objs1 ++ o :: objs2)) dom).business_name
        = (extractBiz o).name) ∧
    (pyTruthyStr (extractBiz o).categories = true →
      (assembleBusiness (parse_jsonld (objs1 ++ o :: objs2)) dom).categories
        = (extractBiz o).categories) ∧
    (pyTruthyStr (extractBiz o).city_region = true →
      (assembleBusiness (parse_jsonld (objs1 ++ o :: objs2)) dom).city_region
        = (extractBiz o).city_region) ∧
    (pyTruthyStr (extractBiz o).price_range = true →
      (assembleBusiness (parse_jsonld (objs1 ++ o :: objs2)) dom).price_range
        = (extractBiz o).price_range) ∧
    (pyTruthyQ (extractBiz o).overall_rating = true →
      (assembleBusiness (parse_jsonld (objs1 ++ o :: objs2)) dom).overall_rating
        = (extractBiz o).overall_rating) ∧
    (pyTruthyZ (extractBiz o).total_review_count = true →
      (assembleBusiness (parse_jsonld (objs1 ++ o :: objs2)) dom).total_reviews
        = (extractBiz o).total_review_count) := by
  have hp := parse_jsonld_first objs1 o objs2 h1 h2
  rw [hp]
  exact ⟨rfl,
    fun ht => pyOrS_of_truthy ht,
    fun ht => pyOrS_of_truthy ht,
    fun ht => pyOrS_of_truthy ht,
    fun ht => pyOrS_of_truthy ht,
    fun ht => pyOrQ_of_truthy ht,
    fun ht => pyOrZ_of_truthy ht⟩

/-- C1 witness: a concrete document whose second object is the first
accepted one; its truthy name and rating take precedence. -/
theorem c1_witness :
    parse_jsonld [oNoType, oCafe, oHotel] = extractBiz oCafe ∧
    (assembleBusiness (parse_jsonld [oNoType, oCafe, oHotel])
      domSample).business_name = some "Cafe X" ∧
    (assembleBusiness (parse_jsonld [oNoType, oCafe, oHotel])
      domSample).overall_rating = some (mkRat 43 10) := by
  have h := c1_truthy_precedence_short_circuit [oNoType] [oHotel] oCafe
    domSample (by decide) (by decide)
  refine ⟨h.1, ?_, ?_⟩
  · exact (h.2.1 (by decide)).trans (by decide)
  · exact (h.2.2.2.2.2.1 (by decide)).trans (by decide)

/-- C2 counterexample: the claim that a block whose review text is shorter
than 20 characters, or contains "things to do" / "best of", contributes no
output row is false: the code has no minimum-length gate and its deny set
holds only "back to search" and "verified". -/
theorem c2_short_text_counterexample :
    ("ok" : String).length < 20 ∧
    processBlock blockShort = some ⟨some "Alice", none, none, some "ok"⟩ ∧
    processBlock blockBestOf =
      some ⟨some "Alice", none, none, some "the best of things to do here"⟩ := by
  refine ⟨by decide, by decide, by decide⟩

/-- C2 (amended): for a block with truthy review text, the block is
excluded exactly when its text contains "verified" or "back to search"
(case-insensitive); no minimum-length gate exists, and "things to do" /
"best of" are not denylisted. -/
theorem c2_junk_filter (b : Block) (ht : pyTruthyStr b.text = true) :
    (processBlock b = none ↔ junkText (b.text.getD "") = true) := by
  unfold processBlock
  have hgate : (pyTruthyStr b.reviewer || pyTruthyStr b.text) = true := by
    rw [ht]
    simp
  rw [hgate]
  simp only [Bool.not_true]
  rw [if_neg (by simp)]
  rw [ht]
  simp only [Bool.true_and]
  by_cases hj : junkText (b.text.getD "") = true
  · rw [if_pos hj]
    simp [hj]
  · rw [Bool.not_eq_true] at hj
    rw [if_neg (by simp [hj])]
    simp [hj]

/-- C2 witness: a denylisted block is dropped, the short-text one is not. -/
theorem c2_witness :
    processBlock blockJunk = none ∧ processBlock blockShort ≠ none := by
  constructor
  · exact (c2_junk_filter blockJunk (by decide)).mpr (by decide)
  · intro hn
    exact absurd ((c2_junk_filter blockShort (by decide)).mp hn) (by decide)

/-- C3: (i) an absent label yields `none`; (ii) whenever the parser returns
a value, the label contains a decimal number followed (up to whitespace) by
`star` or `of 5 bubbles` case-insensitively, and the value is exactly that
number; (iii) conversely, for the leftmost such occurrence (no anchored
match strictly earlier) the parser returns exactly that number. -/
theorem c3_parse_rating_label :
    parse_rating_from_aria_label none = none ∧
    (∀ (s : String) (v : ℚ), parse_rating_from_aria_label (some s) = some v →
      ∃ pre ds frac ws tail,
        s.toList = pre ++ (ds ++ fracChars frac ++ ws ++ tail) ∧
        AriaDecomp (ds ++ fracChars frac ++ ws ++ tail) ds frac ws tail ∧
        v = numValQ ds frac) ∧
    (∀ (s : String) (pre ds ws tail : List Char) (frac : Option (List Char)),
      s.toList = pre ++ (ds ++ fracChars frac ++ ws ++ tail) →
      AriaDecomp (ds ++ fracChars frac ++ ws ++ tail) ds frac ws tail →
      (∀ i, i < pre.length → ratingMatchAt (s.toList.drop i) = none) →
      parse_rating_from_aria_label (some s) = some (numValQ ds frac)) := by
  refine ⟨rfl, ?_, ?_⟩
  · intro s v h
    have h2 : (if s = "" then none else ratingSearch s.toList) = some v := h
    by_cases he : s = ""
    · rw [if_pos he] at h2
      exact absurd h2 (by simp)
    · rw [if_neg he] at h2
      obtain ⟨pre, rest, hl, hm⟩ := ratingSearch_sound h2
      obtain ⟨ds, frac, ws, tail, hd, hv⟩ := ratingMatchAt_sound hm
      exact ⟨pre, ds, frac, ws, tail, by rw [hl, hd.1],
        ⟨rfl, hd.2.1, hd.2.2.1, hd.2.2.2.1, hd.2.2.2.2.1, hd.2.2.2.2.2⟩, hv⟩
  · intro s pre ds ws tail frac hlist hdec hpre
    obtain ⟨hcs, hds, hdsd, hfrac, hws, hkw⟩ := hdec
    have hmatch := ratingMatchAt_complete hds hdsd hfrac hws hkw
    have hne : s ≠ "" := by
      intro he
      have h00 : ("" : String).toList = ([] : List Char) := rfl
      rw [he, h00] at hlist
      obtain ⟨k, t, htail, -, -, -⟩ := kwHead_facts hkw
      rw [htail] at hlist
      have hlen := congrArg List.length hlist
      simp only [List.length_nil, List.length_append, List.length_cons]
        at hlen
      omega
    show (if s = "" then none else ratingSearch s.toList) =
      some (numValQ ds frac)
    rw [if_neg hne, hlist]
    exact ratingSearch_from_pos hmatch
      (fun i hi => by rw [← hlist]; exact hpre i hi)

/-- C3 witness: the parser applied to concrete labels through the claim's
three parts. -/
theorem c3_witness :
    parse_rating_from_aria_label (some "4.5 star rating") =
      some (mkRat 9 2) ∧
    (∃ pre ds frac ws tail,
      ("Rated 3 of 5 bubbles").toList =
        pre ++ (ds ++ fracChars frac ++ ws ++ tail) ∧
      AriaDecomp (ds ++ fracChars frac ++ ws ++ tail) ds frac ws tail ∧
      (3 : ℚ) = numValQ ds frac) ∧
    parse_rating_from_aria_label none = none := by
  refine ⟨?_, ?_, c3_parse_rating_label.1⟩
  · have h := c3_parse_rating_label.2.2 "4.5 star rating" [] ['4'] [' ']
      ("star rating".toList) (some ['5']) (by decide)
      ⟨by decide, by decide, by decide,
        fun fs hfs => by cases hfs; exact ⟨by decide, by decide⟩,
        by decide, by decide⟩
      (fun i hi => absurd hi (Nat.not_lt_zero i))
    exact h.trans (by decide)
  · exact c3_parse_rating_label.2.1 "Rated 3 of 5 bubbles" 3 (by decide)

/-- C4: when no accessibility-labeled rating element is used, a class
string containing `bubble_<N>` at its leftmost such position (digits
maximal, `N ≤ 50`) yields exactly `N/10` as the star rating. -/
theorem c4_bubble_class_rating (cls : String) (pre ds post : List Char)
    (hcls : cls.toList = pre ++ ("bubble_".toList ++ (ds ++ post)))
    (hds : ds ≠ []) (hdsd : ∀ c ∈ ds, isDigitB c = true)
    (hpost : ∀ c, post.head? = some c → isDigitB c = false)
    (_hN : digitsVal ds ≤ 50)
    (hpre : ∀ i, i < pre.length → bubbleMatchAt (cls.toList.drop i) = none) :
    extract_stars none (some cls) = some (mkRat (digitsVal ds) 10) ∧
    (mkRat (digitsVal ds) 10 : ℚ) = (digitsVal ds : ℚ) / 10 := by
  constructor
  · show bubbleSearch cls.toList = _
    rw [hcls]
    exact bubbleSearch_from_pos (bubbleMatchAt_complete hds hdsd hpost)
      (fun i hi => by rw [← hcls]; exact hpre i hi)
  · rw [Rat.mkRat_eq_div]
    push_cast
    ring

/-- C4 witness: `bubble_35` yields 3.5. -/
theorem c4_witness :
    extract_stars none (some "ui_bubble_rating bubble_35") =
      some (mkRat 7 2) := by
  have h := (c4_bubble_class_rating "ui_bubble_rating bubble_35"
    ("ui_bubble_rating ".toList) ['3', '5'] [] (by decide) (by decide)
    (by decide) (fun c hc => Option.noConfusion hc) (by decide)
    (by decide)).1
  exact h.trans (by decide)

/-- C5 counterexample: the claim that the count comes from the first
matching node yielding an extractable leading integer is false: a node
yielding `0` is skipped (`if n:` is false at zero), and the extracted
number need not be leading. -/
theorem c5_zero_count_counterexample :
    hasReviewWord "0 reviews" = true ∧
    pi (num_in "0 reviews") = some 0 ∧
    guess_total_reviews ["0 reviews"] = none ∧
    guess_total_reviews ["See reviews (7)"] = some 7 := by
  refine ⟨by decide, by decide, by decide, by decide⟩

/-- C5 (amended): the scan walks text nodes in order and returns the
integer of the first node matching the whole word `review(s)` whose first
digit run (anywhere in the node) parses to a nonzero integer; nodes
yielding zero or nothing are skipped, no aggregation occurs, and if no node
yields a nonzero integer the count is absent. -/
theorem c5_first_nonzero_count :
    (∀ (ts1 : List String) (t : String) (ts2 : List String) (n : ℤ),
      (∀ x ∈ ts1, nodeCount x = none) → nodeCount t = some n →
      guess_total_reviews (ts1 ++ t :: ts2) = some n) ∧
    (∀ ts : List String, (∀ t ∈ ts, nodeCount t = none) →
      guess_total_reviews ts = none) :=
  ⟨guess_total_first, guess_total_all_none⟩

/-- C5 witness: the first nonzero-yielding node wins. -/
theorem c5_witness :
    guess_total_reviews
      ["great place", "0 reviews", "1,234 Reviews", "9 reviews"] =
      some 1234 := by
  have h := c5_first_nonzero_count.1 ["great place", "0 reviews"]
    "1,234 Reviews" ["9 reviews"] 1234 (by decide) (by decide)
  exact h

/-- C6 counterexample: the claim keys records by (review text, date) BOTH
trimmed.  These two records have identical trimmed pairs — so under the
claim only the first would survive — yet the code keeps both, because the
raw (untrimmed) dates differ by a trailing space. -/
theorem c6_untrimmed_date_counterexample :
    (pyStrip (rowGoodA.review_text.getD ""),
      pyStrip (rowGoodA.date.getD "")) =
    (pyStrip (rowGoodB.review_text.getD ""),
      pyStrip (rowGoodB.date.getD "")) ∧
    rowGoodA.reviewer_handle ≠ rowGoodB.reviewer_handle ∧
    dedupe [rowGoodA, rowGoodB] = [rowGoodA, rowGoodB] := by
  refine ⟨by decide, by decide, by decide⟩

/-- C6 (amended): deduplication keys each record by the pair (trimmed
review text, raw date-or-empty) — only the text is trimmed — and equals the
reference function that keeps exactly the first record of each distinct key
in input order and drops every later record with an identical key, whatever
its other fields. -/
theorem c6_dedupe_first_by_key (l : List Row) :
    dedupe l = keepFirstByKey l :=
  dedupe_eq_keepFirstByKey l

/-- C7: deduplication is idempotent — applying `dedupe` to its own output
returns that output unchanged. -/
theorem c7_dedupe_idempotent (l : List Row) :
    dedupe (dedupe l) = dedupe l := by
  show dedupeGo [] (dedupe l) = dedupe l
  apply dedupeGo_id
  · exact dedupeGo_keys_nodup l []
  · intro r hr
    exact List.not_mem_nil _

/-- C8 counterexample: the claim that every extracted star rating lies in
[0, 5] and is a multiple of 0.5 is false: an aria label `4.3 star rating`
yields 4.3 (not a half-step), and `7 star rating` yields 7 (above 5). -/
theorem c8_rating_range_counterexample :
    extract_stars (some "4.3 star rating") none = some (mkRat 43 10) ∧
    (¬ ∃ k : ℤ, (mkRat 43 10 : ℚ) = k / 2) ∧
    extract_stars (some "7 star rating") none = some 7 ∧
    ¬ ((7 : ℚ) ≤ 5) := by
  refine ⟨by decide, ?_, by decide, by norm_num⟩
  rintro ⟨k, hk⟩
  rw [Rat.mkRat_eq_div] at hk
  push_cast at hk
  have hkq : (k : ℚ) * 5 = 43 := by
    field_simp at hk
    linarith
  have h5 : (k * 5 : ℤ) = 43 := by exact_mod_cast hkq
  omega

/-- C8 (amended): every star rating produced by the per-block extraction,
when present, is nonnegative; no upper bound and no half-step granularity
are enforced by the code. -/
theorem c8_star_rating_nonneg (a b : Option String) (r : ℚ)
    (h : extract_stars a b = some r) : 0 ≤ r := by
  unfold extract_stars at h
  cases a with
  | some lbl =>
    have h2 : (if lbl = "" then none else ratingSearch lbl.toList) =
      some r := h
    by_cases he : lbl = ""
    · rw [if_pos he] at h2
      exact absurd h2 (by simp)
    · rw [if_neg he] at h2
      exact ratingSearch_nonneg h2
  | none =>
    cases b with
    | some cls => exact bubbleSearch_nonneg h
    | none => exact absurd h (by simp)

/-- C8 witness. -/
theorem c8_witness :
    extract_stars (some "4.5 star") none = some (mkRat 9 2) ∧
    (0 : ℚ) ≤ mkRat 9 2 :=
  ⟨by decide,
   c8_star_rating_nonneg (some "4.5 star") none (mkRat 9 2) (by decide)⟩

/-- C9 counterexample: the claim that the joined categories carry no
duplicate is false — an object listing "Pizza" under both cuisine-served
and category joins to "Pizza, Pizza", the string occurring twice. -/
theorem c9_duplicate_category_counterexample :
    (parse_jsonld [oPizzaTwice]).categories = some "Pizza, Pizza" ∧
    (catsList oPizzaTwice).count "Pizza" = 2 := by
  constructor <;> decide

/-- C9 (amended): the category values are gathered from cuisine-served then
category in encounter order and concatenated WITHOUT duplicate removal: any
string present in both fields occurs at least twice in the joined list. -/
theorem c9_categories_not_deduped (o : LdObj) (s : String)
    (h1 : s ∈ catVals o.servesCuisine) (h2 : s ∈ catVals o.category) :
    catsList o = catVals o.servesCuisine ++ catVals o.category ∧
    2 ≤ (catsList o).count s := by
  refine ⟨rfl, ?_⟩
  unfold catsList
  rw [List.count_append]
  have a1 : 0 < (catVals o.servesCuisine).count s := List.count_pos_iff.mpr h1
  have a2 : 0 < (catVals o.category).count s := List.count_pos_iff.mpr h2
  omega

/-- C9 witness. -/
theorem c9_witness :
    catsList oPizzaTwice =
      catVals oPizzaTwice.servesCuisine ++ catVals oPizzaTwice.category ∧
    2 ≤ (catsList oPizzaTwice).count "Pizza" :=
  c9_categories_not_deduped oPizzaTwice "Pizza" (by decide) (by decide)

/-- C10: on every string denoting a decimal numeral (optional minus sign,
nonempty digit run, optional dot-and-digits fraction) `pi` returns the
integer part truncated toward zero — never `none`, and `pf` likewise
returns the exact value; `pi` of an absent input is `none`, and `pi` of a
present string is `none` exactly when the float conversion fails. -/
theorem c10_pi_truncates_toward_zero :
    (∀ (s : String) (neg : Bool) (ds : List Char) (frac : Option (List Char)),
      s.toList = (if neg then ['-'] else []) ++ (ds ++ fracChars frac) →
      ds ≠ [] → (∀ c ∈ ds, isDigitB c = true) →
      (∀ fs, frac = some fs → ∀ c ∈ fs, isDigitB c = true) →
      pi (some s) =
        some (if neg then -(digitsVal ds : ℤ) else (digitsVal ds : ℤ)) ∧
      pf (some s) =
        some (if neg then -(numValQ ds frac) else numValQ ds frac)) ∧
    pi none = none ∧
    (∀ s : String, pi (some s) = none ↔ pyFloat s = none) := by
  refine ⟨?_, rfl, ?_⟩
  · intro s neg ds frac hlist hds hdsd hfrac
    have hfd : ∀ c ∈ fracDigits frac, isDigitB c = true := by
      cases frac with
      | none => intro c hc; simp [fracDigits] at hc
      | some fs => exact hfrac fs rfl
    have hpfc : pyFloatChars s.toList =
        some (if neg then -(numValQ ds frac) else numValQ ds frac) := by
      rw [hlist]
      cases neg with
      | true =>
        rw [show ((if (true : Bool) then ['-'] else []) ++
          (ds ++ fracChars frac)) = '-' :: (ds ++ fracChars frac) from rfl]
        exact pyFloatChars_eval_neg hds hdsd hfrac
      | false =>
        rw [show ((if (false : Bool) then ['-'] else ([] : List Char)) ++
          (ds ++ fracChars frac)) = ds ++ fracChars frac from rfl]
        exact pyFloatChars_eval_pos hds hdsd hfrac
    have htr : truncQ (numValQ ds frac) = (digitsVal ds : ℤ) := by
      rw [numValQ_eq]
      exact truncQ_add_frac (digitsVal ds) (fracVal (fracDigits frac))
        (fracVal_nonneg _) (fracVal_lt_one hfd)
    constructor
    · show (pyFloat s).map truncQ = _
      rw [show pyFloat s = pyFloatChars s.toList from rfl, hpfc]
      cases neg with
      | true => simp [truncQ_neg (numValQ_nonneg ds frac), htr]
      | false => simp [htr]
    · show pyFloat s = _
      exact hpfc
  · intro s
    show (pyFloat s).map truncQ = none ↔ pyFloat s = none
    exact Option.map_eq_none'

/-- C10 witness: `120.9` truncates to 120 and `-2.7` to -2 (toward zero). -/
theorem c10_witness :
    pi (some "120.9") = some 120 ∧ pi (some "-2.7") = some (-2) := by
  constructor
  · have h := (c10_pi_truncates_toward_zero.1 "120.9" false ['1', '2', '0']
      (some ['9']) (by decide) (by decide) (by decide)
      (fun fs hfs => by cases hfs; decide)).1
    exact h.trans (by decide)
  · have h := (c10_pi_truncates_toward_zero.1 "-2.7" true ['2'] (some ['7'])
      (by decide) (by decide) (by decide)
      (fun fs hfs => by cases hfs; decide)).1
    exact h.trans (by decide)

end WebHW
